import Mathlib

/-!
Verification of the EMFreeRTOS task-coordination examples.

Shallow embedding of the queue / mutex / semaphore / interrupt examples:
the repository's own task code (CLI parser, blink task, mutex-handoff
setup, counting-semaphore supervisor, ISR critical-section demo) is
translated from the C++ sources; the FreeRTOS kernel primitives
(xQueueSend / xQueueReceive / xSemaphoreGive / xSemaphoreTake) are not
part of the repository, so their semantics are modelled from the spec.
-/

namespace EMFreeRTOS

/-! ## Bounded channel (FreeRTOS queue)

Modelled from the spec: the FreeRTOS queue implementation behind
`xQueueCreate` / `xQueueSend` / `xQueueReceive` (used by
`src/5-queue/src/main.cpp`) is kernel code absent from the repository.
The spec describes it as a fixed-capacity FIFO: a send copies the item
in if space is available and otherwise fails with `Full` once the
timeout has elapsed; a receive pops the oldest item and otherwise fails
with `Empty`.  We model the state after the timeout has elapsed, so
`send` returns `false` exactly when the channel is full and `receive`
returns `none` exactly when it is empty. -/

structure Channel (α : Type) where
  cap : Nat
  items : List α
  deriving Repr, DecidableEq

namespace Channel

/-- Modelled from the spec: `xQueueSend` with a zero / elapsed timeout.
Appends the item if the channel has space, returning `true`; otherwise
leaves the channel unchanged and returns `false` (the `Full` error). -/
def send (q : Channel α) (x : α) : Channel α × Bool :=
  if q.items.length < q.cap then
    ({ q with items := q.items ++ [x] }, true)
  else
    (q, false)

/-- Modelled from the spec: `xQueueReceive` with a zero / elapsed
timeout.  Pops the oldest item if present, otherwise returns `none`
(the `Empty` error). -/
def receive (q : Channel α) : Channel α × Option α :=
  match q with
  | ⟨cap, []⟩ => (⟨cap, []⟩, none)
  | ⟨cap, x :: xs⟩ => (⟨cap, xs⟩, some x)

/-- Send a whole list in order; the flag is `true` iff every send
succeeded. -/
def sendAll (q : Channel α) : List α → Channel α × Bool
  | [] => (q, true)
  | x :: xs =>
    let (q1, ok) := send q x
    let (q2, ok2) := sendAll q1 xs
    (q2, ok && ok2)

theorem send_of_lt {q : Channel α} {x : α} (h : q.items.length < q.cap) :
    send q x = ({ q with items := q.items ++ [x] }, true) := by
  simp [send, h]

theorem send_of_full {q : Channel α} {x : α} (h : ¬ q.items.length < q.cap) :
    send q x = (q, false) := by
  simp [send, h]

theorem sendAll_ok (xs : List α) :
    ∀ q : Channel α, q.items.length + xs.length ≤ q.cap →
      sendAll q xs = (⟨q.cap, q.items ++ xs⟩, true) := by
  induction xs with
  | nil => intro q _; simp [sendAll]
  | cons x xs ih =>
    intro q h
    have hx : q.items.length < q.cap := by
      have := h
      simp [List.length_cons] at this
      omega
    have h1 : send q x = ({ q with items := q.items ++ [x] }, true) :=
      send_of_lt hx
    have h2 : ({ q with items := q.items ++ [x] } : Channel α).items.length
        + xs.length ≤ q.cap := by
      simp [List.length_append] at *
      omega
    simp only [sendAll, h1]
    rw [ih _ h2]
    simp

end Channel

/-! ## Claim C1: backpressure of a full channel -/

/-- C1.  For every bounded channel of capacity `N ≥ 1`: after `N`
successful sends with no intervening receive, a further send with a
zero (or elapsed) timeout returns `Full` and leaves the channel
contents unchanged; after one item is received, the next send
succeeds. -/
theorem channel_full_after_capacity_sends (N : Nat) (hN : 1 ≤ N)
    (xs : List Int) (hlen : xs.length = N) (y z : Int) :
    (Channel.sendAll ⟨N, []⟩ xs).2 = true ∧
    (Channel.send (Channel.sendAll ⟨N, []⟩ xs).1 y).2 = false ∧
    (Channel.send (Channel.sendAll ⟨N, []⟩ xs).1 y).1
      = (Channel.sendAll ⟨N, []⟩ xs).1 ∧
    (Channel.send (Channel.receive (Channel.sendAll ⟨N, []⟩ xs).1).1 z).2
      = true := by
  have hall : Channel.sendAll (⟨N, []⟩ : Channel Int) xs
      = (⟨N, xs⟩, true) := by
    have := Channel.sendAll_ok xs (⟨N, []⟩ : Channel Int)
      (by simp [hlen])
    simpa using this
  obtain ⟨x, xs', rfl⟩ : ∃ x xs', xs = x :: xs' := by
    cases xs with
    | nil => simp at hlen; omega
    | cons a l => exact ⟨a, l, rfl⟩
  refine ⟨by simp [hall], ?_, ?_, ?_⟩
  · rw [hall]
    simp [Channel.send, hlen]
  · rw [hall]
    simp [Channel.send, hlen]
  · rw [hall]
    simp only [Channel.receive, Channel.send]
    have : xs'.length < N := by
      simp [List.length_cons] at hlen
      omega
    simp [this]

/-- Witness for C1 at N = 2, items [1, 2]. -/
theorem channel_full_after_capacity_sends_witness :
    (Channel.sendAll ⟨2, []⟩ [(1 : Int), 2]).2 = true ∧
    (Channel.send (Channel.sendAll ⟨2, []⟩ [(1 : Int), 2]).1 7).2 = false ∧
    (Channel.send (Channel.sendAll ⟨2, []⟩ [(1 : Int), 2]).1 7).1
      = (Channel.sendAll ⟨2, []⟩ [(1 : Int), 2]).1 ∧
    (Channel.send
      (Channel.receive (Channel.sendAll ⟨2, []⟩ [(1 : Int), 2]).1).1 9).2
      = true :=
  channel_full_after_capacity_sends 2 (by decide) [1, 2] rfl 7 9

/-! ## Claim C2: FIFO order, no loss, no duplication -/

/-- An operation on a channel: a send of a value, or a receive. -/
inductive QOp (α : Type) where
  | send (x : α)
  | recv
  deriving Repr, DecidableEq

/-- Trace state: the channel together with the list of successfully
sent items (in send order) and the list of received items (in receive
order). -/
structure QTrace (α : Type) where
  chan : Channel α
  sent : List α
  recvd : List α
  deriving Repr, DecidableEq

/-- One step of the channel trace. -/
def qStep (t : QTrace α) : QOp α → QTrace α
  | .send x =>
    let (q1, ok) := Channel.send t.chan x
    { t with chan := q1, sent := if ok then t.sent ++ [x] else t.sent }
  | .recv =>
    let (q1, r) := Channel.receive t.chan
    { t with chan := q1,
             recvd := match r with
               | some v => t.recvd ++ [v]
               | none => t.recvd }

/-- Run a list of operations on an initially empty channel of the given
capacity. -/
def qRun (cap : Nat) (ops : List (QOp α)) : QTrace α :=
  ops.foldl qStep ⟨⟨cap, []⟩, [], []⟩

theorem qStep_inv {t : QTrace α} (h : t.sent = t.recvd ++ t.chan.items)
    (op : QOp α) :
    (qStep t op).sent = (qStep t op).recvd ++ (qStep t op).chan.items := by
  cases op with
  | send x =>
    by_cases hx : t.chan.items.length < t.chan.cap
    · simp [qStep, Channel.send_of_lt hx, h]
    · simp [qStep, Channel.send_of_full hx, h]
  | recv =>
    match hc : t.chan with
    | ⟨cap, []⟩ =>
      simp [qStep, Channel.receive, h, hc]
    | ⟨cap, x :: xs⟩ =>
      simp only [qStep, Channel.receive, h, hc]
      simp

/-- C2.  For every sequence of sends interleaved arbitrarily with
receives on an initially empty channel, the sequence of successfully
sent items equals the received items followed by the items still in the
channel: every receive returns the oldest remaining item, items are
observed exactly in send order, and no item is reordered, duplicated or
lost while in the channel. -/
theorem channel_fifo_no_loss_no_dup (cap : Nat) (ops : List (QOp Int)) :
    (qRun cap ops).sent = (qRun cap ops).recvd ++ (qRun cap ops).chan.items := by
  suffices h : ∀ (t : QTrace Int), t.sent = t.recvd ++ t.chan.items →
      (ops.foldl qStep t).sent
        = (ops.foldl qStep t).recvd ++ (ops.foldl qStep t).chan.items by
    exact h ⟨⟨cap, []⟩, [], []⟩ (by simp)
  induction ops with
  | nil => intro t ht; simpa using ht
  | cons op ops ih =>
    intro t ht
    exact ih (qStep t op) (qStep_inv ht op)

/-! ## Counting semaphore

Modelled from the spec: the FreeRTOS implementation behind
`xSemaphoreCreateCounting` / `xSemaphoreGive` / `xSemaphoreTake` (used
by `src/7-semaphore-counting/src/main.cpp`) is kernel code absent from
the repository.  The spec describes it as a non-negative counter with a
bound: acquire decrements only when the count is positive (else
blocks / fails per timeout); release increments, capped at the maximum.
The count is carried as an `Int` so that the non-negativity bound is a
proved property rather than a typing artefact. -/

structure Sem where
  maxCount : Int
  count : Int
  deriving Repr, DecidableEq

namespace Sem

/-- Modelled from the spec: `xSemaphoreGive`.  Increments the count if
below the maximum, otherwise fails and leaves the count unchanged. -/
def give (s : Sem) : Sem × Bool :=
  if s.count < s.maxCount then ({ s with count := s.count + 1 }, true)
  else (s, false)

/-- Modelled from the spec: `xSemaphoreTake` with an elapsed timeout.
Decrements the count if positive, otherwise fails and leaves the count
unchanged. -/
def take (s : Sem) : Sem × Bool :=
  if 0 < s.count then ({ s with count := s.count - 1 }, true)
  else (s, false)

end Sem

/-- An acquire or a release on a semaphore. -/
inductive SemOp where
  | give
  | take
  deriving Repr, DecidableEq

/-- Apply one semaphore operation, discarding the success flag. -/
def semStep (s : Sem) : SemOp → Sem
  | .give => (Sem.give s).1
  | .take => (Sem.take s).1

/-- Run a list of semaphore operations. -/
def semRun (s : Sem) (ops : List SemOp) : Sem :=
  ops.foldl semStep s

theorem semStep_bounds {s : Sem} (h : 0 ≤ s.count ∧ s.count ≤ s.maxCount)
    (op : SemOp) :
    (0 ≤ (semStep s op).count ∧ (semStep s op).count ≤ (semStep s op).maxCount)
      ∧ (semStep s op).maxCount = s.maxCount := by
  cases op with
  | give =>
    by_cases hg : s.count < s.maxCount <;>
      simp [semStep, Sem.give, hg] <;> omega
  | take =>
    by_cases ht : 0 < s.count <;>
      simp [semStep, Sem.take, ht] <;> omega

/-! ## Claim C5: counting semaphore bound -/

/-- C5.  For every counting semaphore created with maximum `max` and
initial count `0` (as `xSemaphoreCreateCounting(num_tasks, 0)` does),
after any sequence of acquire and release operations the count
satisfies `0 ≤ count ≤ max`: release never raises the count above the
maximum and acquire never drives it negative. -/
theorem semaphore_count_bounded (max : Nat) (ops : List SemOp) :
    0 ≤ (semRun ⟨(max : Int), 0⟩ ops).count ∧
    (semRun ⟨(max : Int), 0⟩ ops).count ≤ (max : Int) := by
  suffices h : ∀ s : Sem, 0 ≤ s.count ∧ s.count ≤ s.maxCount →
      (0 ≤ (ops.foldl semStep s).count ∧
       (ops.foldl semStep s).count ≤ (ops.foldl semStep s).maxCount) ∧
      (ops.foldl semStep s).maxCount = s.maxCount by
    have := h ⟨(max : Int), 0⟩ (by constructor <;> simp)
    refine ⟨this.1.1, ?_⟩
    have h2 := this.1.2
    rw [this.2] at h2
    exact h2
  induction ops with
  | nil => intro s hs; exact ⟨hs, rfl⟩
  | cons op ops ih =>
    intro s hs
    have hstep := semStep_bounds hs op
    have := ih (semStep s op) hstep.1
    simp only [List.foldl_cons]
    exact ⟨this.1, by rw [this.2, hstep.2]⟩

/-! ## Claim C7: barrier fan-in in the counting-semaphore supervisor

Embedding of `setup` in `src/7-semaphore-counting/src/main.cpp`:
`num_tasks = 5`; the spawn loop is `for (int i = 0; i <= num_tasks; i++)`
(one `xTaskCreatePinnedToCore` per iteration), the barrier loop is
`for (int i = 0; i < num_tasks; i++)` (one blocking `xSemaphoreTake`
per iteration). -/

/-- `static const int num_tasks = 5;` — "Number of tasks to create". -/
def num_tasks : Nat := 5

/-- Loop indices of the spawn loop `for (int i = 0; i <= num_tasks; i++)`:
the values 0, 1, ..., num_tasks. -/
def supervisorSpawnIndices : List Nat := List.range (num_tasks + 1)

/-- Loop indices of the barrier loop `for (int i = 0; i < num_tasks; i++)`:
the values 0, 1, ..., num_tasks - 1. -/
def supervisorTakeIndices : List Nat := List.range num_tasks

/-- Number of tasks the supervisor spawns (one per spawn-loop iteration). -/
def supervisorSpawnCount : Nat := supervisorSpawnIndices.length

/-- Number of semaphore acquisitions the supervisor performs (one per
barrier-loop iteration). -/
def supervisorTakeCount : Nat := supervisorTakeIndices.length

/-- C7 (code bug).  The supervisor's spawn loop runs with `i <= num_tasks`
and therefore spawns `num_tasks + 1 = 6` tasks, while the barrier loop
performs only `num_tasks = 5` semaphore acquisitions: the number of
acquisitions does not equal the number of tasks spawned, so the
supervisor can announce completion while one spawned task has not yet
signalled.  This contradicts the code's own constant (`num_tasks`,
"Number of tasks to create") and its comment ("Wait for all tasks to
read shared memory"). -/
theorem supervisor_take_count_lt_spawn_count :
    supervisorSpawnCount = num_tasks + 1 ∧
    supervisorTakeCount = num_tasks ∧
    supervisorTakeCount < supervisorSpawnCount := by
  refine ⟨?_, ?_, ?_⟩ <;> decide

/-! ## The CLI task of `src/5-queue-challenge/src/main.cpp`

Embedding of the serial-input branch of `doCLI`: each received
character is stored into a 255-byte buffer while the index is below
`buf_len - 1`; on a newline or carriage return the first `cmd_len`
bytes of the buffer are compared with the literal `"delay "`; on a
match the tail of the buffer is converted with `atoi`, made
non-negative with `abs`, and the result is sent to the delay queue;
the buffer is then zeroed and the index reset.  Non-newline characters
are echoed back.  (The `msg_queue` printing at the top of the loop and
the serial console prints are I/O plumbing outside the parsing core.) -/

/-- `static const uint8_t buf_len = 255;` -/
def buf_len : Nat := 255

/-- `static const char command[] = "delay ";` (note the space). -/
def command : List Char := "delay ".toList

/-- `uint8_t cmd_len = strlen(command);` -/
def cmd_len : Nat := command.length

/-- `static const int delay_queue_len = 5;` -/
def delay_queue_len : Nat := 5

/-- The zero byte, as left in the buffer by `memset(buf, 0, buf_len)`. -/
def nullChar : Char := Char.ofNat 0

/-- C `isspace`: space, tab, newline, vertical tab, form feed,
carriage return (the whitespace `atoi` skips). -/
def isSpaceChar (c : Char) : Bool :=
  c = ' ' || c = Char.ofNat 9 || c = Char.ofNat 10 ||
  c = Char.ofNat 11 || c = Char.ofNat 12 || c = Char.ofNat 13

/-- Accumulate the value of a leading run of decimal digits. -/
def digitsVal : List Char → Nat → Nat
  | [], acc => acc
  | c :: cs, acc =>
    if c.isDigit then digitsVal cs (acc * 10 + (c.toNat - 48)) else acc

/-- C `atoi`: skip leading whitespace, optional sign, then a run of
decimal digits; `0` when no digits follow.  (Values are unbounded
integers: the demo's inputs are far below the `int` range.) -/
def atoi (s : List Char) : Int :=
  match s.dropWhile isSpaceChar with
  | '-' :: rest => -(digitsVal rest 0 : Int)
  | '+' :: rest => (digitsVal rest 0 : Int)
  | rest => (digitsVal rest 0 : Int)

/-- The buffer and write index of `doCLI` (`char buf[buf_len]`,
`uint8_t idx`). -/
structure CLIState where
  buf : List Char
  idx : Nat
  deriving Repr, DecidableEq

/-- Initial CLI state: `memset(buf, 0, buf_len); idx = 0`. -/
def cliInit : CLIState :=
  ⟨List.replicate buf_len nullChar, 0⟩

/-- One character of `doCLI`'s serial branch: store the character if
`idx < buf_len - 1`; on `'\n'` or `'\r'`, compare the buffer prefix
with `command`, on a match send `abs (atoi (buf + cmd_len))` to the
delay queue, then zero the buffer and reset the index; otherwise echo
the character.  Returns the new state, the values sent to the delay
queue, and the echoed characters. -/
def doCLIStep (s : CLIState) (c : Char) : CLIState × List Int × List Char :=
  let s1 : CLIState :=
    if s.idx < buf_len - 1 then ⟨s.buf.set s.idx c, s.idx + 1⟩ else s
  if c = '\n' ∨ c = '\r' then
    let sends :=
      if s1.buf.take cmd_len = command then
        [abs (atoi (s1.buf.drop cmd_len))]
      else []
    (cliInit, sends, [])
  else
    (s1, [], [c])

/-- Accumulated run of `doCLI` over an input byte sequence. -/
structure CLIRun where
  state : CLIState
  sends : List Int
  echoed : List Char
  deriving Repr, DecidableEq

/-- Fold one input character into the accumulated run. -/
def doCLIRunStep (r : CLIRun) (c : Char) : CLIRun :=
  ⟨(doCLIStep r.state c).1,
   r.sends ++ (doCLIStep r.state c).2.1,
   r.echoed ++ (doCLIStep r.state c).2.2⟩

/-- Feed an input byte sequence to `doCLI`, one byte at a time. -/
def doCLIRun (input : List Char) : CLIRun :=
  input.foldl doCLIRunStep ⟨cliInit, [], []⟩

theorem list_set_append_len (xs ys : List α) (a : α) :
    (xs ++ ys).set xs.length a = xs ++ ys.set 0 a := by
  induction xs with
  | nil => rfl
  | cons x xs ih =>
    show x :: (xs ++ ys).set xs.length a = x :: (xs ++ ys.set 0 a)
    rw [ih]

theorem list_take_set_of_le (a : α) :
    ∀ (xs : List α) (i n : Nat), n ≤ i → (xs.set i a).take n = xs.take n := by
  intro xs
  induction xs with
  | nil => intro i n _; rfl
  | cons x xs ih =>
    intro i n h
    cases i with
    | zero =>
      have hn : n = 0 := Nat.le_zero.mp h
      subst hn; rfl
    | succ i =>
      cases n with
      | zero => rfl
      | succ n =>
        show x :: (xs.set i a).take n = x :: xs.take n
        rw [ih i n (Nat.le_of_succ_le_succ h)]

theorem doCLIRun_append (l1 l2 : List Char) :
    doCLIRun (l1 ++ l2) = l2.foldl doCLIRunStep (doCLIRun l1) := by
  simp [doCLIRun, List.foldl_append]

theorem doCLIStep_not_newline {c : Char} (hc : ¬(c = '\n' ∨ c = '\r'))
    (s : CLIState) :
    doCLIStep s c =
      (if s.idx < buf_len - 1 then ⟨s.buf.set s.idx c, s.idx + 1⟩ else s,
       [], [c]) := by
  simp [doCLIStep, hc]

/-- Characterization of `doCLI` on newline-free input: the first
`min |l| 254` characters are stored in the buffer, the rest of the
buffer still holds zero bytes, the index is `min |l| 254`, nothing has
been sent, and every character has been echoed. -/
theorem doCLIRun_no_newline (l : List Char)
    (hl : ∀ c ∈ l, ¬(c = '\n' ∨ c = '\r')) :
    doCLIRun l =
      ⟨⟨l.take (buf_len - 1)
          ++ List.replicate (buf_len - min l.length (buf_len - 1)) nullChar,
        min l.length (buf_len - 1)⟩, [], l⟩ := by
  induction l using List.reverseRecOn with
  | nil =>
    simp only [doCLIRun, List.foldl_nil, List.length_nil, List.take_nil]
    rw [(by decide : min 0 (buf_len - 1) = 0), Nat.sub_zero, List.nil_append]
    rfl
  | append_singleton l c ih =>
    have hc : ¬(c = '\n' ∨ c = '\r') := hl c (by simp)
    have hl2 : ∀ a ∈ l, ¬(a = '\n' ∨ a = '\r') := fun a ha => hl a (by simp [ha])
    rw [doCLIRun_append, List.foldl_cons, List.foldl_nil, ih hl2]
    simp only [doCLIRunStep, doCLIStep_not_newline hc, buf_len]
    by_cases hlen : l.length < 254
    · have hmin : min l.length 254 = l.length := Nat.min_eq_left (Nat.le_of_lt hlen)
      have htake : l.take 254 = l := List.take_of_length_le (Nat.le_of_lt hlen)
      have hmin2 : min (l ++ [c]).length 254 = l.length + 1 := by
        simp only [List.length_append, List.length_cons, List.length_nil]
        omega
      have htake2 : (l ++ [c]).take 254 = l ++ [c] :=
        List.take_of_length_le (by simp; omega)
      have hrep : (255 : Nat) - l.length = (254 - l.length) + 1 := by omega
      simp only [hmin, htake, if_pos hlen, hmin2, htake2]
      rw [hrep, List.replicate_succ, list_set_append_len]
      have hrep2 : (255 : Nat) - (l.length + 1) = 254 - l.length := by omega
      simp [List.set, hrep2, List.append_assoc]
    · have hge : 254 ≤ l.length := Nat.le_of_not_lt hlen
      have hmin : min l.length 254 = 254 := Nat.min_eq_right hge
      have hmin2 : min (l ++ [c]).length 254 = 254 := by
        simp only [List.length_append, List.length_cons, List.length_nil]
        omega
      have htake2 : (l ++ [c]).take 254 = l.take 254 :=
        List.take_append_of_le_length hge
      simp only [hmin, hmin2, htake2]
      rw [if_neg (by omega)]
      norm_num

/-- The per-step list of values sent to the delay queue is either empty
or a single absolute value. -/
theorem doCLIStep_sends_shape (s : CLIState) (c : Char) :
    (doCLIStep s c).2.1 = [] ∨ ∃ e : Int, (doCLIStep s c).2.1 = [abs e] := by
  by_cases hc : c = '\n' ∨ c = '\r'
  · simp only [doCLIStep, if_pos hc]
    by_cases hcmd : ((if s.idx < buf_len - 1 then
        (⟨s.buf.set s.idx c, s.idx + 1⟩ : CLIState) else s)).buf.take cmd_len
          = command
    · exact Or.inr ⟨_, by rw [if_pos hcmd]⟩
    · exact Or.inl (by rw [if_neg hcmd])
  · simp [doCLIStep_not_newline hc]

/-- Every value `doCLI` ever sends to the delay queue is non-negative
(`led_delay = abs(led_delay)` before the send). -/
theorem doCLIRun_sends_nonneg (input : List Char) :
    ∀ v ∈ (doCLIRun input).sends, 0 ≤ v := by
  suffices h : ∀ r : CLIRun, (∀ v ∈ r.sends, 0 ≤ v) →
      ∀ v ∈ (input.foldl doCLIRunStep r).sends, 0 ≤ v by
    exact h ⟨cliInit, [], []⟩ (by simp)
  induction input with
  | nil => intro r hr; simpa using hr
  | cons c cs ih =>
    intro r hr
    refine ih (doCLIRunStep r c) ?_
    intro v hv
    have hsp : (doCLIRunStep r c).sends
        = r.sends ++ (doCLIStep r.state c).2.1 := rfl
    rw [hsp] at hv
    rcases List.mem_append.mp hv with h1 | h2
    · exact hr v h1
    · rcases doCLIStep_sends_shape r.state c with hsh | ⟨e, hsh⟩
      · rw [hsh] at h2; cases h2
      · rw [hsh] at h2
        have : v = abs e := by simpa using h2
        rw [this]
        exact abs_nonneg e

/-- Feeding a newline-free line that does not begin with the exact
bytes `"delay "` and then a newline produces no send to the delay
queue. -/
theorem doCLIRun_no_send_of_not_command (l : List Char)
    (hl : ∀ c ∈ l, ¬(c = '\n' ∨ c = '\r'))
    (hne : l.take cmd_len ≠ command) :
    (doCLIRun (l ++ ['\n'])).sends = [] := by
  rw [doCLIRun_append, List.foldl_cons, List.foldl_nil,
    doCLIRun_no_newline l hl]
  have hcl : cmd_len = 6 := by decide
  suffices hbuf : ((if (min l.length (buf_len - 1)) < buf_len - 1 then
      (⟨(l.take (buf_len - 1)
          ++ List.replicate (buf_len - min l.length (buf_len - 1)) nullChar).set
            (min l.length (buf_len - 1)) '\n',
        (min l.length (buf_len - 1)) + 1⟩ : CLIState)
      else ⟨l.take (buf_len - 1)
          ++ List.replicate (buf_len - min l.length (buf_len - 1)) nullChar,
        min l.length (buf_len - 1)⟩)).buf.take cmd_len ≠ command by
    simp only [doCLIRunStep, doCLIStep, if_pos (Or.inl rfl : ('\n' = '\n' ∨ '\n' = '\r'))]
    simp only [if_neg hbuf]
    simp
  simp only [buf_len, hcl]
  by_cases h6 : 6 ≤ l.length
  · have hm6 : 6 ≤ min l.length 254 := le_min h6 (by omega)
    have hkey : ∀ i, 6 ≤ i → ((l.take 254
        ++ List.replicate (255 - min l.length 254) nullChar).set i '\n').take 6
          = l.take 6 := by
      intro i hi
      rw [list_take_set_of_le _ _ _ _ hi]
      rw [List.take_append_of_le_length (by simp [List.length_take]; omega)]
      rw [List.take_take]
      norm_num
    have htk : (l.take 254
        ++ List.replicate (255 - min l.length 254) nullChar).take 6
          = l.take 6 := by
      rw [List.take_append_of_le_length (by simp [List.length_take]; omega)]
      rw [List.take_take]
      norm_num
    rw [hcl] at hne
    by_cases hlt : min l.length 254 < 254
    · rw [if_pos hlt]
      dsimp only
      rw [hkey (min l.length 254) hm6]
      exact hne
    · rw [if_neg hlt]
      dsimp only
      rw [htk]
      exact hne
  · have hlen6 : l.length < 6 := Nat.lt_of_not_le h6
    have hlt : min l.length 254 < 254 := by omega
    have hmin : min l.length 254 = l.length := Nat.min_eq_left (by omega)
    rw [if_pos hlt]
    simp only [hmin]
    have htake : l.take 254 = l := List.take_of_length_le (by omega)
    have hrep : (255 : Nat) - l.length = (254 - l.length) + 1 := by omega
    rw [htake, hrep, List.replicate_succ, list_set_append_len]
    intro hEq
    have hmem : '\n' ∈ ((l ++ (nullChar :: List.replicate (254 - l.length) nullChar).set 0 '\n').take 6) := by
      rw [List.take_append_eq_append_take]
      have : 6 - l.length = (5 - l.length) + 1 := by omega
      simp [List.set, this]
    rw [hEq] at hmem
    exact (by decide : ¬ ('\n' ∈ command)) hmem

/-! ## Claim C4: command parsing -/

/-- C4.  Fed the byte sequence `"delay 250\n"` one byte at a time,
`doCLI` sends exactly one integer, `250`, to the delay queue (and on a
fresh delay queue of capacity 5 that value is delivered); `"delay -5\n"`
sends the absolute value `5`; every value ever sent to the delay queue
is non-negative; and a line that does not begin with the exact prefix
`"delay "` causes no send to the delay queue. -/
theorem doCLI_delay_command_parsing :
    (doCLIRun ("delay 250\n".toList)).sends = [250]
    ∧ (Channel.sendAll ⟨delay_queue_len, []⟩
        (doCLIRun ("delay 250\n".toList)).sends).1.items = [250]
    ∧ (doCLIRun ("delay -5\n".toList)).sends = [5]
    ∧ (∀ input : List Char, ∀ v ∈ (doCLIRun input).sends, 0 ≤ v)
    ∧ (∀ l : List Char, (∀ c ∈ l, ¬(c = '\n' ∨ c = '\r')) →
        l.take cmd_len ≠ command →
        (doCLIRun (l ++ ['\n'])).sends = []) :=
  ⟨by decide, by decide, by decide, doCLIRun_sends_nonneg,
   doCLIRun_no_send_of_not_command⟩

/-- Witness for C4's universally quantified parts: the input
`"hello\n"` (a line not starting with `"delay "`) produces no send, and
the value sent for `"delay -5\n"` is non-negative. -/
theorem doCLI_delay_command_parsing_witness :
    (doCLIRun ("hello".toList ++ ['\n'])).sends = [] ∧ (0 : Int) ≤ 5 :=
  ⟨doCLI_delay_command_parsing.2.2.2.2 "hello".toList (by decide) (by decide),
   doCLI_delay_command_parsing.2.2.2.1 "delay -5\n".toList 5 (by decide)⟩

/-! ## Claim C10: the CLI buffer is never overrun -/

/-- C10.  `doCLI` never writes past its 255-byte buffer: the write
index never exceeds `buf_len - 1 = 254` and the buffer keeps its
length; when the index has reached the limit, a further non-newline
character leaves the state unchanged (the character is discarded) but
is still echoed; and a newline or carriage return always resets the
index to `0` (and re-zeroes the buffer). -/
theorem doCLI_buffer_never_overrun :
    (∀ input : List Char, (doCLIRun input).state.idx ≤ buf_len - 1
        ∧ (doCLIRun input).state.buf.length = buf_len)
    ∧ (∀ (s : CLIState) (c : Char), ¬(c = '\n' ∨ c = '\r') →
        ¬ s.idx < buf_len - 1 →
        (doCLIStep s c).1 = s ∧ (doCLIStep s c).2.2 = [c])
    ∧ (∀ (s : CLIState) (c : Char), (c = '\n' ∨ c = '\r') →
        (doCLIStep s c).1 = cliInit) := by
  refine ⟨?_, ?_, ?_⟩
  · intro input
    suffices h : ∀ r : CLIRun, r.state.idx ≤ buf_len - 1
        ∧ r.state.buf.length = buf_len →
        (input.foldl doCLIRunStep r).state.idx ≤ buf_len - 1
        ∧ (input.foldl doCLIRunStep r).state.buf.length = buf_len by
      exact h ⟨cliInit, [], []⟩ (by constructor <;> simp [cliInit])
    induction input with
    | nil => intro r hr; simpa using hr
    | cons c cs ih =>
      intro r hr
      refine ih (doCLIRunStep r c) ?_
      have hst : (doCLIRunStep r c).state = (doCLIStep r.state c).1 := rfl
      rw [hst]
      by_cases hc : c = '\n' ∨ c = '\r'
      · simp only [doCLIStep, if_pos hc]
        constructor <;> simp [cliInit]
      · rw [doCLIStep_not_newline hc]
        by_cases hidx : r.state.idx < buf_len - 1
        · rw [if_pos hidx]
          refine ⟨by simpa using hidx, ?_⟩
          simpa using hr.2

        · rw [if_neg hidx]
          exact hr
  · intro s c hc hidx
    rw [doCLIStep_not_newline hc, if_neg hidx]
    exact ⟨rfl, rfl⟩
  · intro s c hc
    simp only [doCLIStep, if_pos hc]

/-- Witness for C10: a state whose index sits at the limit discards a
further character but still echoes it, and a newline resets the
state. -/
theorem doCLI_buffer_never_overrun_witness :
    (doCLIStep ⟨List.replicate buf_len 'a', buf_len - 1⟩ 'x').1
        = ⟨List.replicate buf_len 'a', buf_len - 1⟩
    ∧ (doCLIStep ⟨List.replicate buf_len 'a', buf_len - 1⟩ 'x').2.2 = ['x']
    ∧ (doCLIStep ⟨List.replicate buf_len 'a', buf_len - 1⟩ '\n').1 = cliInit :=
  ⟨(doCLI_buffer_never_overrun.2.1 ⟨List.replicate buf_len 'a', buf_len - 1⟩ 'x'
      (by decide) (by decide)).1,
   (doCLI_buffer_never_overrun.2.1 ⟨List.replicate buf_len 'a', buf_len - 1⟩ 'x'
      (by decide) (by decide)).2,
   doCLI_buffer_never_overrun.2.2 ⟨List.replicate buf_len 'a', buf_len - 1⟩ '\n'
      (Or.inl rfl)⟩

/-! ## The blink task of `src/5-queue-challenge/src/main.cpp`

Embedding of one pass of `blinkLED`'s loop: a non-blocking receive on
the delay queue (updating `led_delay` and sending a
`"Message received "` message when a value arrives), the LED blink
itself (I/O, outside the model), then `counter++` and — once the
counter reaches `blink_max` — a `"Blinked: "` message carrying the
counter, after which the counter is reset. -/

/-- `static const uint8_t blink_max = 100;` -/
def blink_max : Nat := 100

/-- The `Message` struct of the queue challenge: a string body and a
count. -/
structure Message where
  body : String
  count : Int
  deriving Repr, DecidableEq

/-- Local state of `blinkLED`: `int led_delay = 500; uint8_t counter = 0;` -/
structure BlinkState where
  led_delay : Int
  counter : Nat
  deriving Repr, DecidableEq

/-- Initial state of `blinkLED`. -/
def blinkInit : BlinkState := ⟨500, 0⟩

/-- One loop iteration of `blinkLED`.  `delayMsg` is the result of the
non-blocking `xQueueReceive` on the delay queue; the returned list
holds the messages sent to `msg_queue` during the iteration, in
order. -/
def blinkLEDStep (s : BlinkState) (delayMsg : Option Int) :
    BlinkState × List Message :=
  let d :=
    match delayMsg with
    | some v => v
    | none => s.led_delay
  let recvMsgs : List Message :=
    match delayMsg with
    | some _ => [⟨"Message received ", 1⟩]
    | none => []
  let c := s.counter + 1
  if blink_max ≤ c then
    (⟨d, 0⟩, recvMsgs ++ [⟨"Blinked: ", (c : Int)⟩])
  else
    (⟨d, c⟩, recvMsgs)

/-! ## Claim C9: the blink task's messages -/

/-- C9.  In every loop iteration of `blinkLED` starting from a counter
below `blink_max` (as every reachable state does, starting from 0):
the messages sent are exactly one `"Message received "` message with
count 1 when a delay value was received, followed by exactly one
`"Blinked: "` message with count `100` when this iteration completes
the 100th blink cycle; in that case the counter is reset to `0`, and
the counter stays below `blink_max`, so the hypothesis is invariant. -/
theorem blinkLED_message_per_hundred_blinks (s : BlinkState)
    (dm : Option Int) (h : s.counter < blink_max) :
    ((blinkLEDStep s dm).2 =
      (match dm with
        | some _ => [(⟨"Message received ", 1⟩ : Message)]
        | none => []) ++
      (if s.counter + 1 = blink_max then
        [(⟨"Blinked: ", (100 : Int)⟩ : Message)] else []))
    ∧ (s.counter + 1 = blink_max → (blinkLEDStep s dm).1.counter = 0)
    ∧ (blinkLEDStep s dm).1.counter < blink_max := by
  by_cases hc : s.counter + 1 = blink_max
  · have hle : blink_max ≤ s.counter + 1 := by omega
    have h100 : ((s.counter + 1 : Nat) : Int) = 100 := by
      rw [hc]; rfl
    refine ⟨?_, fun _ => ?_, ?_⟩
    · simp only [blinkLEDStep, if_pos hle, if_pos hc, h100]
    · simp only [blinkLEDStep, if_pos hle]
    · simp only [blinkLEDStep, if_pos hle]
      cases dm <;> simp [blink_max]
  · have hlt : ¬ blink_max ≤ s.counter + 1 := by omega
    refine ⟨?_, fun hx => absurd hx hc, ?_⟩
    · simp only [blinkLEDStep, if_neg hlt, if_neg hc]
      simp
    · simp only [blinkLEDStep, if_neg hlt]
      cases dm <;> omega

/-- Witness for C9 at the 100th cycle with a freshly received delay of
250: both messages are sent and the counter resets. -/
theorem blinkLED_message_per_hundred_blinks_witness :
    ((blinkLEDStep ⟨500, 99⟩ (some 250)).2 =
      [(⟨"Message received ", 1⟩ : Message)] ++
      (if (99 : Nat) + 1 = blink_max then
        [(⟨"Blinked: ", (100 : Int)⟩ : Message)] else []))
    ∧ ((99 : Nat) + 1 = blink_max →
        (blinkLEDStep ⟨500, 99⟩ (some 250)).1.counter = 0) := by
  have h := blinkLED_message_per_hundred_blinks ⟨500, 99⟩ (some 250) (by decide)
  exact ⟨h.1, h.2.1⟩

/-! ## The ISR critical-section demo
(`src/9-hardware-interrupts/src/main-demo-isr-critical-section.cpp`)

Embedding of the accesses to the shared `volatile int isr_counter` in
`onTimer` and in the inner loop of `printValues`, together with the
spinlock critical-section brackets surrounding them, in program
order. -/

/-- A read or a write of the shared counter. -/
inductive Access where
  | read
  | write
  deriving Repr, DecidableEq

/-- The statements of the demo that touch the shared counter or the
spinlock. -/
inductive CInstr where
  | enterCrit
  | exitCrit
  | access (a : Access)
  deriving Repr, DecidableEq

/-- `onTimer`: `portENTER_CRITICAL_ISR(&spinlock); isr_counter++;
portEXIT_CRITICAL_ISR(&spinlock);` — the increment reads and writes
the counter inside the critical section. -/
def onTimerInstrs : List CInstr :=
  [.enterCrit, .access .read, .access .write, .exitCrit]

/-- One pass of the inner loop of `printValues`:
`while (isr_counter > 0)` reads the counter (unprotected),
`Serial.println(isr_counter)` reads it (unprotected), then
`portENTER_CRITICAL(&spinlock); isr_counter--;
portEXIT_CRITICAL(&spinlock);` reads and writes it inside the critical
section. -/
def printValuesLoopInstrs : List CInstr :=
  [.access .read, .access .read,
   .enterCrit, .access .read, .access .write, .exitCrit]

/-- Pair every shared-counter access with the critical-section nesting
depth in force when it executes (an access is protected iff its depth
is positive). -/
def accessesWithDepth : List CInstr → Nat → List (Access × Nat)
  | [], _ => []
  | .enterCrit :: rest, d => accessesWithDepth rest (d + 1)
  | .exitCrit :: rest, d => accessesWithDepth rest (d - 1)
  | .access a :: rest, d => (a, d) :: accessesWithDepth rest d

/-! ## Claim C6: interrupt-latch access discipline -/

/-- Counterexample to C6 as stated: not every access of the latched
counter from task code happens inside a critical section — the
`while (isr_counter > 0)` guard and the `Serial.println(isr_counter)`
in `printValues` read the counter at critical-section depth 0. -/
theorem printValues_reads_counter_unprotected :
    ¬ (∀ p ∈ accessesWithDepth printValuesLoopInstrs 0, 0 < p.2) := by
  decide

/-- C6 (amended).  Every write of the interrupt-latched counter from
task code (`isr_counter--` in `printValues`) happens inside a critical
section on the same spinlock the ISR uses, and every ISR access is
inside a critical section; however the task also reads the counter
unprotected (loop guard and print). -/
theorem counter_writes_protected :
    (∀ p ∈ accessesWithDepth printValuesLoopInstrs 0,
      p.1 = Access.write → 0 < p.2)
    ∧ (∀ p ∈ accessesWithDepth onTimerInstrs 0, 0 < p.2) := by
  decide

/-- Witness for C6 (amended): the task's decrement and the ISR's
accesses sit at depth 1. -/
theorem counter_writes_protected_witness : (0 : Nat) < 1 ∧ (0 : Nat) < 1 :=
  ⟨counter_writes_protected.1 (Access.write, 1) (by decide) rfl,
   counter_writes_protected.2 (Access.read, 1) (by decide)⟩

/-! ## The mutex argument-handoff of `src/6-mutex-challenge/src/main.cpp`

Operational model of the interleaving of the `setup` task (the
creator) and the spawned `blinkLED` task.  `setup` reads a delay value
into the stack-local `delay_arg` and prints it, creates the mutex and
takes it, spawns `blinkLED` with a pointer to `delay_arg`, then blocks
taking the mutex a second time; only when that second take succeeds
does `setup` print `"Done!"` and return, letting `delay_arg` go out of
scope.  `blinkLED` copies `*parameters` into its local `num`, gives
the mutex back (a give performed by a task that does not hold the
mutex — `setup` holds it), prints `"Received: num"` and blinks
forever.  Steps interleave arbitrarily, constrained only by the
blocking semantics of the mutex; the mutex-creation and the creator's
first (immediately successful) take are folded into one step. -/

/-- Program counter of `setup`. -/
inductive CreatorPC where
  | start
  | tookMutex
  | spawned
  | resumed
  deriving Repr, DecidableEq

/-- Program counter of the spawned `blinkLED` task. -/
inductive ChildPC where
  | notStarted
  | created
  | copied
  | released
  | printed
  deriving Repr, DecidableEq

/-- The two execution contexts. -/
inductive Ctx where
  | creator
  | child
  deriving Repr, DecidableEq

/-- Serial outputs of the two tasks.  `errorReport` is the output an
invariant-violation check would produce; no statement of the source
emits it. -/
inductive Output where
  | sending (n : Int)
  | received (n : Int)
  | done
  | errorReport
  deriving Repr, DecidableEq

/-- Joint state of the handoff system.  `childCopy = none` stands for
the indeterminate garbage `blinkLED` would read if it dereferenced the
parameter pointer after `delay_arg` went out of scope. -/
structure HandoffState where
  cpc : CreatorPC
  tpc : ChildPC
  mutexAvail : Bool
  holder : Option Ctx
  stackLive : Bool
  argVal : Int
  childCopy : Option Int
  nonHolderGive : Bool
  outputs : List Output
  deriving Repr, DecidableEq

/-- Initial state: `delay_arg = v` on `setup`'s stack, mutex not yet
created, `blinkLED` not yet spawned. -/
def handoffInit (v : Int) : HandoffState :=
  { cpc := .start, tpc := .notStarted, mutexAvail := false, holder := none,
    stackLive := true, argVal := v, childCopy := none,
    nonHolderGive := false, outputs := [.sending v] }

/-- Small-step transition relation of the handoff system. -/
inductive HandoffStep : HandoffState → HandoffState → Prop where
  | creatorTake1 (s : HandoffState) :
      s.cpc = .start →
      HandoffStep s { s with cpc := .tookMutex, mutexAvail := false,
                             holder := some .creator }
  | creatorSpawn (s : HandoffState) :
      s.cpc = .tookMutex →
      HandoffStep s { s with cpc := .spawned, tpc := .created }
  | creatorTake2 (s : HandoffState) :
      s.cpc = .spawned → s.mutexAvail = true →
      HandoffStep s { s with cpc := .resumed, mutexAvail := false,
                             holder := some .creator, stackLive := false,
                             outputs := s.outputs ++ [.done] }
  | childCopyArg (s : HandoffState) :
      s.tpc = .created →
      HandoffStep s { s with tpc := .copied,
                             childCopy := if s.stackLive then some s.argVal
                                          else none }
  | childGive (s : HandoffState) :
      s.tpc = .copied →
      HandoffStep s { s with tpc := .released, mutexAvail := true,
                             holder := none,
                             nonHolderGive := s.nonHolderGive
                               || decide (s.holder ≠ some Ctx.child) }
  | childPrint (s : HandoffState) :
      s.tpc = .released →
      HandoffStep s { s with tpc := .printed,
                             outputs := s.outputs ++
                               [.received (s.childCopy.getD 0)] }

/-- States reachable from `handoffInit v`. -/
inductive HandoffReach (v : Int) : HandoffState → Prop where
  | init : HandoffReach v (handoffInit v)
  | step {s t : HandoffState} :
      HandoffReach v s → HandoffStep s t → HandoffReach v t

/-- Inductive invariant of the handoff system. -/
structure HandoffInv (v : Int) (s : HandoffState) : Prop where
  argConst : s.argVal = v
  startTpc : s.cpc = .start → s.tpc = .notStarted
  tookTpc : s.cpc = .tookMutex → s.tpc = .notStarted
  stackDead : s.stackLive = false → s.cpc = .resumed
  resumedTpc : s.cpc = .resumed → s.tpc = .released ∨ s.tpc = .printed
  availTpc : s.mutexAvail = true → s.tpc = .released ∨ s.tpc = .printed
  copiedVal : s.tpc = .copied ∨ s.tpc = .released ∨ s.tpc = .printed →
      s.childCopy = some v
  childCpc : s.tpc ≠ .notStarted → s.cpc = .spawned ∨ s.cpc = .resumed
  noError : Output.errorReport ∉ s.outputs

theorem handoffStep_inv {v : Int} {s t : HandoffState}
    (hstep : HandoffStep s t) (ih : HandoffInv v s) : HandoffInv v t := by
  rcases ih with ⟨hA, hF1, hF2, hB, hC, hD, hE, hG, hN⟩
  cases hstep with
  | creatorTake1 hs =>
    refine ⟨hA, ?_, ?_, ?_, ?_, ?_, hE, ?_, hN⟩
    · intro h; simp at h
    · intro _; exact hF1 hs
    · intro h
      have hres := hB h
      rw [hs] at hres; cases hres
    · intro h; simp at h
    · intro h; simp at h
    · intro h
      exact absurd (hF1 hs) h
  | creatorSpawn hs =>
    refine ⟨hA, ?_, ?_, ?_, ?_, ?_, ?_, ?_, hN⟩
    · intro h; simp at h
    · intro h; simp at h
    · intro h
      have hres := hB h
      rw [hs] at hres; cases hres
    · intro h; simp at h
    · intro h
      rcases hD h with h1 | h1 <;> (rw [hF2 hs] at h1; cases h1)
    · intro h
      rcases h with h1 | h1 | h1 <;> simp at h1
    · intro _; exact Or.inl rfl
  | creatorTake2 hs havail =>
    have htpc := hD havail
    refine ⟨hA, ?_, ?_, ?_, ?_, ?_, ?_, ?_, ?_⟩
    · intro h; simp at h
    · intro h; simp at h
    · intro _; rfl
    · intro _; exact htpc
    · intro h; simp at h
    · intro _
      rcases htpc with h1 | h1
      · exact hE (Or.inr (Or.inl h1))
      · exact hE (Or.inr (Or.inr h1))
    · intro _; exact Or.inr rfl
    · intro h
      rcases List.mem_append.mp h with h1 | h1
      · exact hN h1
      · simp at h1
  | childCopyArg hs =>
    have hlive : s.stackLive = true := by
      cases hsl : s.stackLive with
      | true => rfl
      | false =>
        rcases hC (hB hsl) with h1 | h1 <;> (rw [hs] at h1; cases h1)
    refine ⟨hA, ?_, ?_, ?_, ?_, ?_, ?_, ?_, hN⟩
    · intro h
      have hns := hF1 h
      rw [hs] at hns; cases hns
    · intro h
      have hns := hF2 h
      rw [hs] at hns; cases hns
    · intro h
      exact hB h
    · intro h
      rcases hC h with h1 | h1 <;> (rw [hs] at h1; cases h1)
    · intro h
      rcases hD h with h1 | h1 <;> (rw [hs] at h1; cases h1)
    · intro _
      show (if s.stackLive then some s.argVal else none) = some v
      rw [hlive, if_pos rfl, hA]
    · intro _
      exact hG (by rw [hs]; intro h; cases h)
  | childGive hs =>
    refine ⟨hA, ?_, ?_, ?_, ?_, ?_, ?_, ?_, hN⟩
    · intro h
      have hns := hF1 h
      rw [hs] at hns; cases hns
    · intro h
      have hns := hF2 h
      rw [hs] at hns; cases hns
    · intro h
      exact hB h
    · intro _; exact Or.inl rfl
    · intro _; exact Or.inl rfl
    · intro _
      exact hE (Or.inl hs)
    · intro _
      exact hG (by rw [hs]; intro h; cases h)
  | childPrint hs =>
    refine ⟨hA, ?_, ?_, ?_, ?_, ?_, ?_, ?_, ?_⟩
    · intro h
      have hns := hF1 h
      rw [hs] at hns; cases hns
    · intro h
      have hns := hF2 h
      rw [hs] at hns; cases hns
    · intro h
      exact hB h
    · intro _; exact Or.inr rfl
    · intro _; exact Or.inr rfl
    · intro _
      exact hE (Or.inr (Or.inl hs))
    · intro _
      exact hG (by rw [hs]; intro h; cases h)
    · intro h
      rcases List.mem_append.mp h with h1 | h1
      · exact hN h1
      · simp at h1

theorem handoff_inv (v : Int) (s : HandoffState) (h : HandoffReach v s) :
    HandoffInv v s := by
  induction h with
  | init =>
    refine ⟨rfl, fun _ => rfl, ?_, ?_, ?_, ?_, ?_, ?_, ?_⟩ <;>
      intro h <;> simp [handoffInit] at h ⊢
  | step _ hstep ih =>
    exact handoffStep_inv hstep ih

/-! ## Claim C3: the argument handoff delivers the stack-local value -/

/-- C3.  In every reachable state of the handoff system in which the
creator has resumed (passed its second, blocking take of the mutex,
after which the stack-local goes out of scope), the spawned task has
already copied the creator's value — its local copy equals `some v`,
the value the creator stored, not the garbage marker — and has already
released the lock. -/
theorem mutex_handoff_copy_before_resume (v : Int) (s : HandoffState)
    (h : HandoffReach v s) (hr : s.cpc = CreatorPC.resumed) :
    s.childCopy = some v ∧
    (s.tpc = ChildPC.released ∨ s.tpc = ChildPC.printed) := by
  have hinv := handoff_inv v s h
  have htpc := hinv.resumedTpc hr
  refine ⟨?_, htpc⟩
  rcases htpc with h1 | h1
  · exact hinv.copiedVal (Or.inr (Or.inl h1))
  · exact hinv.copiedVal (Or.inr (Or.inr h1))

/-- The state at the end of the canonical handoff run with
`delay_arg = 750`. -/
def handoffFinal : HandoffState :=
  { cpc := .resumed, tpc := .printed, mutexAvail := false,
    holder := some .creator, stackLive := false, argVal := 750,
    childCopy := some 750, nonHolderGive := true,
    outputs := [.sending 750, .done, .received 750] }

/-- The canonical handoff run reaches `handoffFinal`: take, spawn,
copy, give, second take, print. -/
theorem handoffFinal_reachable : HandoffReach 750 handoffFinal := by
  have h0 : HandoffReach 750 (handoffInit 750) := HandoffReach.init
  have h1 := HandoffReach.step h0 (HandoffStep.creatorTake1 _ rfl)
  have h2 := HandoffReach.step h1 (HandoffStep.creatorSpawn _ rfl)
  have h3 := HandoffReach.step h2 (HandoffStep.childCopyArg _ rfl)
  have h4 := HandoffReach.step h3 (HandoffStep.childGive _ rfl)
  have h5 := HandoffReach.step h4 (HandoffStep.creatorTake2 _ rfl rfl)
  have h6 := HandoffReach.step h5 (HandoffStep.childPrint _ rfl)
  exact h6

/-- Witness for C3: at the end of the canonical run with value 750,
the child's copy is 750 and it has released the lock. -/
theorem mutex_handoff_copy_before_resume_witness :
    handoffFinal.childCopy = some 750 ∧
    (handoffFinal.tpc = ChildPC.released ∨
     handoffFinal.tpc = ChildPC.printed) :=
  mutex_handoff_copy_before_resume 750 handoffFinal handoffFinal_reachable rfl

/-! ## Claim C8: an unheld release is not reported -/

/-- Counterexample to C8 as stated: it is not the case that whenever a
give is performed by a context that does not hold the mutex the program
reports a programming error — in the canonical handoff run `blinkLED`
gives the mutex while `setup` holds it (`nonHolderGive` is set) and no
error report ever appears among the outputs. -/
theorem unheld_release_not_reported :
    ¬ (∀ s : HandoffState, HandoffReach 750 s → s.nonHolderGive = true →
        Output.errorReport ∈ s.outputs) := by
  intro hclaim
  have hmem := hclaim handoffFinal handoffFinal_reachable rfl
  exact absurd hmem (by decide)

/-- C8 (amended).  A release of the mutex performed by a context that
does not hold it is carried out silently: the result of
`xSemaphoreGive` is discarded and no state reachable in the handoff
system ever emits an error report — indeed the handoff pattern relies
on the non-holder give succeeding silently. -/
theorem unheld_release_silent (v : Int) (s : HandoffState)
    (h : HandoffReach v s) : Output.errorReport ∉ s.outputs :=
  (handoff_inv v s h).noError

/-- Witness for C8 (amended): the canonical run performs a non-holder
give yet its outputs contain no error report. -/
theorem unheld_release_silent_witness :
    Output.errorReport ∉ handoffFinal.outputs ∧
    handoffFinal.nonHolderGive = true :=
  ⟨unheld_release_silent 750 handoffFinal handoffFinal_reachable, rfl⟩

end EMFreeRTOS
